import Mathlib

/-!
Verification of the TRC3500 Project 3 acquisition pipeline
(uart_p3.py, Python_scripts/uart_p3.py, uart_p3_v2.py, uart_p3_v3.py, uart_v4.py).

The Python/numpy code is shallowly embedded over exact arithmetic:
voltage series become `List ℚ`, raw byte buffers become `List ℕ`,
complex DFT bins become pairs of rationals.  Fallible library calls
(frombuffer, filtfilt, savgol_filter, find_peaks, the UART read loop)
are embedded as `Except String` values mirroring the exceptions the
libraries raise.
-/

set_option maxHeartbeats 1000000

namespace Uart

/-! ## Channel demultiplexer (uart_p3.py lines 80-81)

`adc1 = adc_array[::2]` and `adc2 = adc_array[1::2]` on the decoded
uint16 sample list. -/

/-- Elements at even positions of a list: embeds the numpy slice `adc_array[::2]`
(channel ADC1 of the interleaved stream). -/
def evens {α : Type} : List α → List α
  | [] => []
  | [x] => [x]
  | x :: _ :: xs => x :: evens xs

/-- Elements at odd positions of a list: embeds the numpy slice `adc_array[1::2]`
(channel ADC2 of the interleaved stream). -/
def odds {α : Type} : List α → List α
  | [] => []
  | [_] => []
  | _ :: y :: xs => y :: odds xs

/-- Interleaving of two channel sequences back into one stream
(A0, B0, A1, B1, ...); leftover elements of either side are drained in order. -/
def interleave {α : Type} : List α → List α → List α
  | [], ys => ys
  | x :: xs, [] => x :: xs
  | x :: xs, y :: ys => x :: y :: interleave xs ys

theorem interleave_evens_odds {α : Type} : ∀ l : List α, interleave (evens l) (odds l) = l
  | [] => rfl
  | [_] => rfl
  | x :: y :: xs => by
      simp only [evens, odds, interleave]
      exact congrArg (fun t => x :: y :: t) (interleave_evens_odds xs)

theorem evens_getD {α : Type} : ∀ (l : List α) (i : ℕ) (d : α),
    (evens l).getD i d = l.getD (2 * i) d
  | [], i, d => by cases i <;> rfl
  | [x], i, d => by
      cases i with
      | zero => rfl
      | succ n => simp [evens, Nat.mul_succ, List.getD]
  | x :: y :: xs, i, d => by
      cases i with
      | zero => rfl
      | succ n =>
          have h2 : 2 * (n + 1) = 2 * n + 1 + 1 := by ring
          simp only [evens, List.getD_cons_succ, h2]
          exact evens_getD xs n d

theorem odds_getD {α : Type} : ∀ (l : List α) (i : ℕ) (d : α),
    (odds l).getD i d = l.getD (2 * i + 1) d
  | [], i, d => by cases i <;> rfl
  | [x], i, d => by cases i <;> simp [odds, List.getD]
  | x :: y :: xs, i, d => by
      cases i with
      | zero => rfl
      | succ n =>
          have h2 : 2 * (n + 1) + 1 = 2 * n + 1 + 1 + 1 := by ring
          simp only [odds, List.getD_cons_succ, h2]
          exact odds_getD xs n d

/-- C1: for every even-length 16-bit sample sequence, the demultiplexer yields
channel A = even-position elements and channel B = odd-position elements, in
original order (stated via the index maps i ↦ 2i and i ↦ 2i+1), and
re-interleaving the two channels reconstructs the original sequence exactly. -/
theorem channelDemultiplexer_partition_spec (l : List ℕ) (_hl : l.length % 2 = 0) :
    (∀ i d, (evens l).getD i d = l.getD (2 * i) d) ∧
    (∀ i d, (odds l).getD i d = l.getD (2 * i + 1) d) ∧
    interleave (evens l) (odds l) = l :=
  ⟨fun i d => evens_getD l i d, fun i d => odds_getD l i d, interleave_evens_odds l⟩

/-- Witness for C1 at the concrete even-length buffer [10, 20, 30, 40]. -/
theorem channelDemultiplexer_partition_spec_witness :
    ([10, 20, 30, 40] : List ℕ).length % 2 = 0 ∧
    interleave (evens [10, 20, 30, 40]) (odds [10, 20, 30, 40]) = [10, 20, 30, 40] :=
  ⟨by decide, (channelDemultiplexer_partition_spec [10, 20, 30, 40] (by decide)).2.2⟩

/-! ## Voltage converter (uart_p3.py lines 84-86)

`v = (code.astype(np.float32) * 3300) / 4095` and the ADC2 polarity mirror
`v_adc2 = 2 * 1650 - v_adc2`.  Both 0 * 3300 and 4095 * 3300 = 13513500 are
below 2^24, so these float32 computations are exact and the ℚ embedding
agrees with the code on the claimed values. -/

/-- ADC code to millivolts with the default calibration (3300 mV full scale,
4095 max code), embedding `(adc.astype(np.float32) * 3300) / 4095`. -/
def voltageOfCode (code : ℕ) : ℚ := (code : ℚ) * 3300 / 4095

/-- Channel-2 polarity mirror about the 1650 mV center:
embeds `v_adc2 = 2 * 1650 - v_adc2`. -/
def mirrorVoltage (v : ℚ) : ℚ := 2 * 1650 - v

/-- C6: under the default calibration the converter maps code 0 to 0 mV and
code 4095 to 3300 mV, and every converted value v satisfies
v + mirror(v) = 2 * center. -/
theorem voltageConverter_spec :
    voltageOfCode 0 = 0 ∧ voltageOfCode 4095 = 3300 ∧
    ∀ v : ℚ, v + mirrorVoltage v = 2 * 1650 := by
  refine ⟨by norm_num [voltageOfCode], by norm_num [voltageOfCode], fun v => ?_⟩
  simp only [mirrorVoltage]
  ring

/-! ## Rate estimator (uart_p3.py lines 53-62)

`estimate_bpm`: peak times are `time_axis[peaks]`; with at least two peaks the
reported rate is `np.mean(60 / np.diff(peak_times))`, otherwise no rate. -/

/-- Consecutive differences of a list, embedding `np.diff`. -/
def diffList : List ℚ → List ℚ
  | a :: b :: rest => (b - a) :: diffList (b :: rest)
  | _ => []

/-- Arithmetic mean of a list, embedding `np.mean` (sum divided by length;
never applied to an empty list by the pipeline). -/
def meanQ (l : List ℚ) : ℚ := l.sum / l.length

/-- The estimate_bpm function of uart_p3.py: given peak indices and a parallel
time axis, reports the mean of the instantaneous rates 60/Δt over consecutive
inter-peak time differences when at least two peaks exist, and no rate
otherwise. -/
def estimate_bpm (peaks : List ℕ) (time_axis : List ℚ) : Option ℚ :=
  let peak_times := peaks.map fun i => time_axis.getD i 0
  if 2 ≤ peaks.length then
    some (meanQ ((diffList peak_times).map fun dt => 60 / dt))
  else
    none

theorem diffList_length : ∀ l : List ℚ, (diffList l).length = l.length - 1
  | [] => rfl
  | [_] => rfl
  | a :: b :: rest => by
      simp only [diffList, List.length_cons]
      rw [diffList_length (b :: rest)]
      simp

/-- C2: with fewer than two peaks the rate estimator reports no rate; otherwise
it reports the arithmetic mean of 60/Δt over the consecutive inter-peak time
differences (the sum of the instantaneous rates divided by the number of
intervals, peaks.length - 1); on peaks at times [1, 2, 3, 4] seconds it
reports exactly 60 events per minute. -/
theorem rateEstimator_spec (peaks : List ℕ) (time_axis : List ℚ) :
    estimate_bpm peaks time_axis =
      (if 2 ≤ peaks.length then
        some ((((diffList (peaks.map fun i => time_axis.getD i 0)).map
            fun dt => 60 / dt).sum) / ((peaks.length : ℚ) - 1))
      else none) ∧
    estimate_bpm [0, 1, 2, 3] [1, 2, 3, 4] = some 60 := by
  constructor
  · by_cases h : 2 ≤ peaks.length
    · simp only [estimate_bpm, meanQ, if_pos h]
      congr 1
      rw [List.length_map, diffList_length, List.length_map]
      have h1 : 1 ≤ peaks.length := le_trans (by norm_num) h
      rw [Nat.cast_sub h1]
      norm_num
    · simp [estimate_bpm, h]
  · norm_num [estimate_bpm, diffList, meanQ]

/-! ## Frame reader (Python_scripts/uart_v4.py lines 65-72)

The byte-accumulation loop of acquire_one_burst:

  need, buf = TOTAL_SAMPLES * 2, bytearray()
  while len(buf) < need:
      chunk = ser.read(need - len(buf))
      if not chunk:
          raise RuntimeError("UART timeout - burst truncated")
      buf.extend(chunk)

The transport is modelled as a script of chunks: the i-th call to
ser.read(k) returns the first min(k, len(cᵢ)) bytes of the i-th chunk, and a
read past the end of the script returns zero bytes (the transport has
stalled and its timeout elapsed, which is exactly when pyserial returns an
empty bytes object). -/

/-- The fixed message of the RuntimeError raised by the burst reader. -/
def timeoutMsg : String := "UART timeout - burst truncated"

/-- The while-loop of acquire_one_burst: buf accumulates reads until it holds
`need` bytes; an empty read raises the timeout error. -/
def acquireLoop (need : ℕ) : List ℕ → List (List ℕ) → Except String (List ℕ)
  | buf, [] => if need ≤ buf.length then .ok buf else .error timeoutMsg
  | buf, c :: rest =>
      if need ≤ buf.length then .ok buf
      else
        let chunk := c.take (need - buf.length)
        if chunk.isEmpty then .error timeoutMsg
        else acquireLoop need (buf ++ chunk) rest

/-- acquire_one_burst's frame-reading stage: collect exactly `need` bytes from
the scripted transport, or fail with the timeout error. -/
def acquire_one_burst (need : ℕ) (chunks : List (List ℕ)) : Except String (List ℕ) :=
  acquireLoop need [] chunks

/-- Bytes the transport can deliver before its first zero-byte read:
the total length of the chunks preceding the first empty chunk. -/
def availBytes (chunks : List (List ℕ)) : ℕ :=
  ((chunks.takeWhile fun c => !c.isEmpty).map List.length).sum

theorem acquireLoop_spec (need : ℕ) : ∀ (chunks : List (List ℕ)) (buf : List ℕ),
    acquireLoop need buf chunks =
      if need ≤ buf.length + availBytes chunks
      then .ok (buf ++ chunks.flatten.take (need - buf.length))
      else .error timeoutMsg
  | [], buf => by
      simp only [acquireLoop, availBytes, List.takeWhile_nil, List.map_nil, List.sum_nil,
        Nat.add_zero, List.flatten_nil, List.take_nil, List.append_nil]
  | c :: rest, buf => by
      by_cases hb : need ≤ buf.length
      · have hb2 : need ≤ buf.length + availBytes (c :: rest) := le_trans hb (Nat.le_add_right _ _)
        have ht : need - buf.length = 0 := Nat.sub_eq_zero_of_le hb
        simp only [acquireLoop, if_pos hb, if_pos hb2, ht, List.take_zero, List.append_nil]
      · by_cases hc : c.isEmpty
        · have hcnil : c = [] := List.isEmpty_iff.mp hc
          subst hcnil
          have havail : availBytes ([] :: rest) = 0 := by
            simp [availBytes, List.takeWhile]
          rw [acquireLoop]
          simp [hb, havail]
        · have hcne : c ≠ [] := fun h => by simp [h] at hc
          have havail : availBytes (c :: rest) = c.length + availBytes rest := by
            simp [availBytes, List.takeWhile, hc]
          have hlt : buf.length < need := Nat.lt_of_not_le hb
          have hchunkne : ¬(c.take (need - buf.length)).isEmpty := by
            rcases c with _ | ⟨a, c2⟩
            · exact absurd rfl hcne
            · obtain ⟨k, hk⟩ : ∃ k, need - buf.length = k + 1 :=
                ⟨need - buf.length - 1, by omega⟩
              rw [hk]
              simp
          rw [acquireLoop]
          simp only [if_neg hb, if_neg hchunkne]
          rw [acquireLoop_spec need rest (buf ++ c.take (need - buf.length))]
          rw [havail]
          by_cases hcov : c.length ≤ need - buf.length
          · have htake : c.take (need - buf.length) = c := List.take_of_length_le hcov
            rw [htake]
            have hlen : (buf ++ c).length = buf.length + c.length := by simp
            rw [hlen]
            have heq : buf ++ c ++ rest.flatten.take (need - (buf.length + c.length)) =
                buf ++ (c :: rest).flatten.take (need - buf.length) := by
              rw [List.flatten_cons, List.take_append_eq_append_take, htake,
                List.append_assoc, ← Nat.sub_sub]
            rw [Nat.add_assoc, heq]
          · have hcgt : need - buf.length < c.length := Nat.lt_of_not_le hcov
            have htlen : (c.take (need - buf.length)).length = need - buf.length := by
              rw [List.length_take]
              omega
            have hdone2 : need ≤ (buf ++ c.take (need - buf.length)).length + availBytes rest := by
              simp only [List.length_append, htlen]
              omega
            rw [if_pos hdone2]
            have hfin : need ≤ buf.length + (c.length + availBytes rest) := by omega
            rw [if_pos hfin]
            have hsub : need - (buf ++ c.take (need - buf.length)).length = 0 := by
              simp only [List.length_append, htlen]
              omega
            rw [hsub, List.take_zero, List.append_nil]
            rw [List.flatten_cons, List.take_append_eq_append_take]
            have hz : need - buf.length - c.length = 0 := by omega
            rw [hz, List.take_zero, List.append_nil]

theorem availBytes_le_flatten_length :
    ∀ chunks : List (List ℕ), availBytes chunks ≤ chunks.flatten.length
  | [] => by simp [availBytes]
  | c :: rest => by
      by_cases hc : c.isEmpty
      · have : c = [] := List.isEmpty_iff.mp hc
        subst this
        simp [availBytes, List.takeWhile]
      · have havail : availBytes (c :: rest) = c.length + availBytes rest := by
          simp [availBytes, List.takeWhile, hc]
        rw [havail]
        simp only [List.flatten_cons, List.length_append]
        exact Nat.add_le_add_left (availBytes_le_flatten_length rest) _

/-- C3: the frame reader returns ok exactly when the transport can deliver the
required byte count before a zero-byte read, in which case the returned buffer
is exactly the first `need` delivered bytes (no truncation, no padding, length
exactly `need`); otherwise it raises the acquisition-timeout error. -/
theorem frameReader_spec (need : ℕ) (chunks : List (List ℕ)) :
    acquire_one_burst need chunks =
      (if need ≤ availBytes chunks
       then .ok (chunks.flatten.take need)
       else .error timeoutMsg) ∧
    ∀ b, acquire_one_burst need chunks = .ok b → b.length = need := by
  have hmain : acquire_one_burst need chunks =
      if need ≤ availBytes chunks
      then .ok (chunks.flatten.take need)
      else .error timeoutMsg := by
    rw [acquire_one_burst, acquireLoop_spec]
    simp only [List.length_nil, Nat.zero_add, List.nil_append, Nat.sub_zero]
  refine ⟨hmain, fun b hb => ?_⟩
  rw [hmain] at hb
  by_cases h : need ≤ availBytes chunks
  · rw [if_pos h] at hb
    have hbv : b = chunks.flatten.take need := by
      injection hb with h2
      exact h2.symm
    subst hbv
    rw [List.length_take]
    have hjoin : availBytes chunks ≤ chunks.flatten.length :=
      availBytes_le_flatten_length chunks
    omega
  · rw [if_neg h] at hb
    exact absurd hb (by simp)

/-- Witness for C3 at need = 3 with a transport scripted to answer two partial
reads of two bytes each: the reader returns exactly the first three bytes. -/
theorem frameReader_spec_witness :
    acquire_one_burst 3 [[1, 2], [9, 8]] = .ok [1, 2, 9] ∧
    ([1, 2, 9] : List ℕ).length = 3 := by
  constructor
  · have h := (frameReader_spec 3 [[1, 2], [9, 8]]).1
    rw [h]
    rfl
  · exact (frameReader_spec 3 [[1, 2], [9, 8]]).2 [1, 2, 9]
      (by rw [(frameReader_spec 3 [[1, 2], [9, 8]]).1]; rfl)

/-! ## Dead-band quantizer (Python_scripts/uart_v4.py lines 52-56)

  def filter_voltage(v, thresh=NOISE_DEADBAND):
      mean = v.mean()
      v[np.abs(v - mean) <= thresh] = mean
      return v

The masked assignment writes through the numpy array reference, so after the
call the caller's array holds the returned (flattened) series, not the
original one. -/

/-- The series computed (and written in place into the caller's array) by
filter_voltage: every sample within thresh of the series mean is replaced by
the mean. -/
def filter_voltage (v : List ℚ) (thresh : ℚ) : List ℚ :=
  let m := meanQ v
  v.map fun x => if |x - m| ≤ thresh then m else x

/-- Counterexample for C7: on the series [0, 0, 3] with threshold 1 the
dead-band quantizer stores [1, 1, 3] into the caller's array (the mean is 1),
so the caller's input series is not left unchanged by conditioning. -/
theorem deadband_mutates_counterexample :
    filter_voltage [0, 0, 3] 1 = [1, 1, 3] ∧
    filter_voltage [0, 0, 3] 1 ≠ [0, 0, 3] := by
  have h : filter_voltage [0, 0, 3] 1 = [1, 1, 3] := by
    norm_num [filter_voltage, meanQ, abs_le]
  refine ⟨h, ?_⟩
  rw [h]
  simp

theorem map_eq_self_iff {α : Type} (f : α → α) :
    ∀ l : List α, l.map f = l ↔ ∀ x ∈ l, f x = x
  | [] => by simp
  | a :: l => by
      simp only [List.map_cons, List.cons.injEq, List.mem_cons]
      rw [map_eq_self_iff f l]
      constructor
      · rintro ⟨h1, h2⟩ x (rfl | hx)
        · exact h1
        · exact h2 x hx
      · intro h
        exact ⟨h a (Or.inl rfl), fun x hx => h x (Or.inr hx)⟩

/-- C7 (amended): the dead-band quantizer is a deterministic function of its
input series, but it writes its output into the caller's array in place; the
caller's series is left unchanged by conditioning exactly when every sample
inside the dead band already equals the series mean. -/
theorem deadband_unchanged_iff (v : List ℚ) (t : ℚ) :
    filter_voltage v t = v ↔ ∀ x ∈ v, |x - meanQ v| ≤ t → x = meanQ v := by
  simp only [filter_voltage]
  rw [map_eq_self_iff]
  constructor
  · intro h x hx hband
    have hfx := h x hx
    rw [if_pos hband] at hfx
    exact hfx.symm
  · intro h x hx
    by_cases hband : |x - meanQ v| ≤ t
    · rw [if_pos hband]
      exact (h x hx hband).symm
    · rw [if_neg hband]

/-- Witness for C7 (amended) on the concrete series [2, 2] with threshold 0:
every in-band sample equals the mean, so conditioning leaves it unchanged. -/
theorem deadband_unchanged_iff_witness : filter_voltage [2, 2] 0 = [2, 2] :=
  (deadband_unchanged_iff [2, 2] 0).mpr (by norm_num [meanQ])

/-! ## Byte-buffer decoding (uart_p3.py lines 77-81)

`adc_array = np.frombuffer(data, dtype=np.uint16)`.  numpy's frombuffer
raises ValueError when the buffer length is not a multiple of the element
size (2 bytes here); it never drops a trailing partial element. -/

/-- The message of the ValueError numpy raises for a misaligned buffer. -/
def bufferSizeMsg : String := "buffer size must be a multiple of element size"

/-- np.frombuffer(data, dtype=np.uint16) over a little-endian byte list:
decodes consecutive byte pairs as lo + 256 * hi, or raises the ValueError for
an odd-length buffer. -/
def frombufferU16 : List ℕ → Except String (List ℕ)
  | [] => .ok []
  | [_] => .error bufferSizeMsg
  | lo :: hi :: rest => (frombufferU16 rest).map fun l => (lo + 256 * hi) :: l

/-- Counterexample for C8: on the 3-byte buffer [1, 0, 7], whose length is not
a multiple of the 2-byte element size, the demultiplexer's frombuffer call
raises ValueError instead of silently dropping the trailing byte and
succeeding with the decoded element [1]. -/
theorem frombuffer_oddBuffer_counterexample :
    frombufferU16 [1, 0, 7] = .error bufferSizeMsg ∧
    frombufferU16 [1, 0, 7] ≠ .ok [1] := by
  refine ⟨rfl, fun h => ?_⟩
  rw [(rfl : frombufferU16 [1, 0, 7] = .error bufferSizeMsg)] at h
  exact Except.noConfusion h

theorem frombufferU16_error_iff :
    ∀ bs : List ℕ, frombufferU16 bs = .error bufferSizeMsg ↔ bs.length % 2 = 1
  | [] => by simp [frombufferU16]
  | [x] => by simp [frombufferU16]
  | lo :: hi :: rest => by
      rw [frombufferU16]
      cases hr : frombufferU16 rest with
      | ok l =>
          simp only [Except.map]
          have hrec := frombufferU16_error_iff rest
          rw [hr] at hrec
          have h2 : ¬ rest.length % 2 = 1 := fun hh => Except.noConfusion (hrec.mpr hh)
          constructor
          · intro h
            exact absurd h (by simp)
          · intro h
            exfalso
            apply h2
            simp only [List.length_cons] at h
            omega
      | error e =>
          simp only [Except.map]
          have hrec := frombufferU16_error_iff rest
          rw [hr] at hrec
          rw [hrec]
          simp only [List.length_cons]
          omega

theorem frombufferU16_ok_spec :
    ∀ bs : List ℕ, bs.length % 2 = 0 →
      ∃ l, frombufferU16 bs = .ok l ∧ l.length = bs.length / 2 ∧
        ∀ i, l.getD i 0 = bs.getD (2 * i) 0 + 256 * bs.getD (2 * i + 1) 0
  | [], _ => ⟨[], rfl, rfl, fun i => by cases i <;> rfl⟩
  | [_], h => by simp at h
  | lo :: hi :: rest, h => by
      have h2 : rest.length % 2 = 0 := by
        simp only [List.length_cons] at h
        omega
      obtain ⟨l, hl, hlen, hval⟩ := frombufferU16_ok_spec rest h2
      refine ⟨(lo + 256 * hi) :: l, ?_, ?_, ?_⟩
      · rw [frombufferU16, hl]
        rfl
      · simp only [List.length_cons, hlen]
        omega
      · intro i
        cases i with
        | zero => rfl
        | succ n =>
            have e1 : 2 * (n + 1) = 2 * n + 1 + 1 := by ring
            rw [e1]
            simp only [List.getD_cons_succ]
            exact hval n

/-- C8 (amended): a buffer whose length is not a multiple of the 2-byte
element size makes the demultiplexer raise numpy's ValueError (no silent
dropping); an even-length buffer is decoded without error into
little-endian unsigned 16-bit elements, half as many as there are bytes. -/
theorem channelDemux_oddBuffer_amended (bs : List ℕ) :
    (frombufferU16 bs = .error bufferSizeMsg ↔ bs.length % 2 = 1) ∧
    (bs.length % 2 = 0 →
      ∃ l, frombufferU16 bs = .ok l ∧ l.length = bs.length / 2 ∧
        ∀ i, l.getD i 0 = bs.getD (2 * i) 0 + 256 * bs.getD (2 * i + 1) 0) :=
  ⟨frombufferU16_error_iff bs, frombufferU16_ok_spec bs⟩

/-- Witness for C8 (amended) on the even-length buffer [52, 1]:
decoding succeeds with the single element 52 + 256 = 308. -/
theorem channelDemux_oddBuffer_amended_witness :
    ([52, 1] : List ℕ).length % 2 = 0 ∧
    ∃ l, frombufferU16 [52, 1] = .ok l ∧ l.length = ([52, 1] : List ℕ).length / 2 ∧
      ∀ i, l.getD i 0 =
        ([52, 1] : List ℕ).getD (2 * i) 0 + 256 * ([52, 1] : List ℕ).getD (2 * i + 1) 0 :=
  ⟨by decide, (channelDemux_oddBuffer_amended [52, 1]).2 (by decide)⟩

/-! ## Streaming time axis (uart_p3.py lines 89-91, uart_p3_v2.py lines 95-96)

  sample_count = TOTAL_SAMPLES // 2
  time_axis = np.linspace(0, sample_count / SAMPLING_RATE, sample_count)

np.linspace with the default endpoint=True spaces its num points by
(stop - start)/(num - 1). -/

/-- np.linspace(start, stop, num) with the default endpoint=True: num values
start + (stop - start) * i / (num - 1); a one-point linspace is [start]. -/
def linspace (start stop : ℚ) (num : ℕ) : List ℚ :=
  if num = 1 then [start]
  else (List.range num).map fun (i : ℕ) => start + (stop - start) * (i : ℚ) / ((num : ℚ) - 1)

/-- The streaming-variant time axis for a channel of sample_count samples at
the given sampling rate. -/
def time_axis (sample_count : ℕ) (rate : ℚ) : List ℚ :=
  linspace 0 ((sample_count : ℚ) / rate) sample_count

/-- The nominal uniformly sampled time axis: sample i occurs at i / rate
seconds (inter-sample spacing exactly one nominal sampling period). -/
def uniformAxis (sample_count : ℕ) (rate : ℚ) : List ℚ :=
  (List.range sample_count).map fun (i : ℕ) => (i : ℚ) / rate

theorem getD_range_map (f : ℕ → ℚ) (n i : ℕ) (hi : i < n) :
    ((List.range n).map f).getD i 0 = f i := by
  have hlen : i < ((List.range n).map f).length := by simpa using hi
  rw [List.getD_eq_getElem _ _ hlen]
  simp

theorem time_axis_eq_scaled (n : ℕ) (r : ℚ) (hn : 2 ≤ n) :
    time_axis n r = (uniformAxis n r).map fun t => ((n : ℚ) / ((n : ℚ) - 1)) * t := by
  rw [time_axis, uniformAxis, linspace, if_neg (by omega), List.map_map]
  apply List.map_congr_left
  intro i _
  show 0 + (((n : ℚ) / r - 0) * i) / ((n : ℚ) - 1)
      = ((n : ℚ) / ((n : ℚ) - 1)) * ((i : ℚ) / r)
  rw [zero_add, sub_zero, div_eq_mul_inv, div_eq_mul_inv, div_eq_mul_inv, div_eq_mul_inv]
  ring

theorem diffList_map_mul (c : ℚ) : ∀ l : List ℚ,
    diffList (l.map fun t => c * t) = (diffList l).map fun t => c * t
  | [] => rfl
  | [_] => rfl
  | a :: b :: rest => by
      have ih := diffList_map_mul c (b :: rest)
      simp only [List.map_cons] at ih ⊢
      simp only [diffList, List.map_cons]
      rw [List.cons.injEq]
      exact ⟨by ring, ih⟩

theorem sum_map_mul (c : ℚ) : ∀ l : List ℚ, (l.map fun t => c * t).sum = c * l.sum
  | [] => by simp
  | a :: l => by
      simp only [List.map_cons, List.sum_cons, sum_map_mul c l]
      ring

theorem meanQ_map_mul (c : ℚ) (l : List ℚ) :
    meanQ (l.map fun t => c * t) = c * meanQ l := by
  rw [meanQ, meanQ, List.length_map, sum_map_mul, mul_div_assoc]

theorem invRate_scale (c t : ℚ) : 60 / (c * t) = (1 / c) * (60 / t) := by
  rw [one_div, div_eq_mul_inv, div_eq_mul_inv, mul_inv]
  ring

/-- C10: in the streaming variant, sample i of the time axis is stamped
i * sample_count / (rate * (sample_count - 1)); the inter-sample spacing is
(1/rate) * (sample_count/(sample_count - 1)), i.e. the nominal period scaled
by sample_count/(sample_count - 1); and every rate the estimator derives from
these timestamps is (sample_count - 1)/sample_count times the rate derived
from the nominal axis with timestamps i / rate. -/
theorem streamingTimestamps_spec (n : ℕ) (r : ℚ) (hn : 2 ≤ n) :
    (∀ i, i < n → (time_axis n r).getD i 0 = (i : ℚ) * n / (r * ((n : ℚ) - 1))) ∧
    (∀ i, i + 1 < n →
      (time_axis n r).getD (i + 1) 0 - (time_axis n r).getD i 0
        = (1 / r) * ((n : ℚ) / ((n : ℚ) - 1))) ∧
    (∀ peaks : List ℕ,
      estimate_bpm peaks (time_axis n r)
        = (estimate_bpm peaks (uniformAxis n r)).map
            fun v => (((n : ℚ) - 1) / (n : ℚ)) * v) := by
  have hne : (n : ℚ) ≠ 0 := by
    have : (0 : ℚ) < (n : ℚ) := by
      exact_mod_cast Nat.lt_of_lt_of_le (by norm_num) hn
    exact ne_of_gt this
  have hne1 : (n : ℚ) - 1 ≠ 0 := by
    have h1 : (1 : ℚ) < (n : ℚ) := by
      exact_mod_cast Nat.lt_of_lt_of_le (by norm_num) hn
    intro h
    have : (n : ℚ) = 1 := by linarith
    linarith
  refine ⟨?_, ?_, ?_⟩
  · intro i hi
    rw [time_axis, linspace, if_neg (by omega), getD_range_map _ _ _ hi]
    rw [zero_add, sub_zero, div_eq_mul_inv, div_eq_mul_inv, div_eq_mul_inv, mul_inv]
    ring
  · intro i hi
    rw [time_axis, linspace, if_neg (by omega), getD_range_map _ _ _ hi,
      getD_range_map _ _ _ (by omega : i < n)]
    push_cast
    rw [zero_add, sub_zero, div_eq_mul_inv, div_eq_mul_inv, div_eq_mul_inv]
    ring
  · intro peaks
    have hc : (1 : ℚ) / ((n : ℚ) / ((n : ℚ) - 1)) = ((n : ℚ) - 1) / (n : ℚ) :=
      one_div_div _ _
    rw [time_axis_eq_scaled n r hn]
    rw [estimate_bpm, estimate_bpm]
    have hpt : (peaks.map fun i =>
          ((uniformAxis n r).map fun t => ((n : ℚ) / ((n : ℚ) - 1)) * t).getD i 0)
        = (peaks.map fun i => (uniformAxis n r).getD i 0).map
            fun t => ((n : ℚ) / ((n : ℚ) - 1)) * t := by
      rw [List.map_map]
      apply List.map_congr_left
      intro i _
      have hg := @List.getD_map ℚ ℚ (uniformAxis n r) 0 i
        (fun t => ((n : ℚ) / ((n : ℚ) - 1)) * t)
      simp only [mul_zero] at hg
      exact hg
    simp only [hpt]
    by_cases hlen : 2 ≤ peaks.length
    · simp only [if_pos hlen, Option.map_some]
      congr 1
      rw [diffList_map_mul, List.map_map]
      have hmap : ((diffList (peaks.map fun i => (uniformAxis n r).getD i 0)).map
            ((fun dt => 60 / dt) ∘ fun t => ((n : ℚ) / ((n : ℚ) - 1)) * t))
          = ((diffList (peaks.map fun i => (uniformAxis n r).getD i 0)).map
              fun dt => 60 / dt).map
              fun v => (((n : ℚ) - 1) / (n : ℚ)) * v := by
        rw [List.map_map]
        apply List.map_congr_left
        intro t _
        show 60 / ((n : ℚ) / ((n : ℚ) - 1) * t) = ((n : ℚ) - 1) / (n : ℚ) * (60 / t)
        rw [invRate_scale, hc]
      rw [hmap, meanQ_map_mul]
    · simp only [if_neg hlen]
      rfl

/-- Witness for C10 at sample_count = 4 and rate = 100: the first inter-sample
spacing equals (1/100) * (4/3). -/
theorem streamingTimestamps_spec_witness :
    (time_axis 4 100).getD 1 0 - (time_axis 4 100).getD 0 0
      = (1 / 100) * (((4 : ℕ) : ℚ) / (((4 : ℕ) : ℚ) - 1)) :=
  (streamingTimestamps_spec 4 100 (by norm_num)).2.1 0 (by norm_num)

/-! ## Signal conditioners (uart_p3.py lines 50-51, uart_p3_v2.py lines 19-27,
uart_p3_v3.py lines 90-92)

Moving average: np.convolve(signal, np.ones(W)/W, mode=valid).
Low-pass IIR: scipy filtfilt of butter(4, cutoff/nyquist) coefficients.
Savitzky-Golay: scipy savgol_filter(x, window_length, polyorder). -/

/-- Full discrete convolution of two rational sequences (the numpy full
convolution): element n is the sum over k of a[k] * v[n-k]. -/
def fullConv (a v : List ℚ) : List ℚ :=
  (List.range (a.length + v.length - 1)).map fun (n : ℕ) =>
    ∑ k ∈ Finset.range (n + 1), a.getD k 0 * v.getD (n - k) 0

/-- numpy valid-mode convolution: the slice of the full convolution where the
two sequences overlap completely, of length max - min + 1 for nonempty
inputs. -/
def convolveValid (a v : List ℚ) : List ℚ :=
  ((fullConv a v).drop (min a.length v.length - 1)).take
    (max a.length v.length - min a.length v.length + 1)

/-- moving_average from uart_p3.py lines 50-51:
np.convolve(signal, np.ones(window_size)/window_size, mode=valid). -/
def moving_average (signal : List ℚ) (window_size : ℕ) : List ℚ :=
  convolveValid signal (List.replicate window_size (1 / (window_size : ℚ)))

theorem fullConv_length (a v : List ℚ) :
    (fullConv a v).length = a.length + v.length - 1 := by
  simp [fullConv]

theorem convolveValid_length (a v : List ℚ) (ha : 1 ≤ a.length) (hv : 1 ≤ v.length) :
    (convolveValid a v).length = max a.length v.length - min a.length v.length + 1 := by
  simp only [convolveValid, List.length_take, List.length_drop, fullConv_length]
  omega

/-- One step of scipy lfilter's direct form II transposed recurrence with the
leading denominator coefficient already normalized to 1: the output sample is
b0 * x + z0 and state slot i becomes b(i+1) * x + z(i+1) - a(i+1) * y. -/
def lfilterGo (b a : List ℚ) : List ℚ → List ℚ → List ℚ
  | _, [] => []
  | st, xn :: xs =>
      let yn := b.getD 0 0 * xn + st.getD 0 0
      let st2 := (List.range st.length).map fun (i : ℕ) =>
        b.getD (i + 1) 0 * xn + st.getD (i + 1) 0 - a.getD (i + 1) 0 * yn
      yn :: lfilterGo b a st2 xs

/-- scipy.signal.lfilter(b, a, x, zi): both coefficient vectors are first
normalized by a[0], then the recurrence runs over x from initial state zi. -/
def lfilter (b a x zi : List ℚ) : List ℚ :=
  let a0 := a.getD 0 0
  lfilterGo (b.map fun c => c / a0) (a.map fun c => c / a0) zi x

theorem lfilterGo_length (b a : List ℚ) :
    ∀ (st x : List ℚ), (lfilterGo b a st x).length = x.length
  | _, [] => rfl
  | st, xn :: xs => by
      rw [lfilterGo]
      simp only [List.length_cons]
      rw [lfilterGo_length]

theorem lfilter_length (b a x zi : List ℚ) : (lfilter b a x zi).length = x.length := by
  rw [lfilter]
  exact lfilterGo_length _ _ _ _

/-- scipy's odd_ext edge padding: padlen reflected samples around each end;
left padding value k is 2*x[0] - x[padlen - k], right padding value k is
2*x[last] - x[len - 2 - k]. -/
def oddExt (x : List ℚ) (padlen : ℕ) : List ℚ :=
  ((List.range padlen).map fun (k : ℕ) =>
    2 * x.getD 0 0 - x.getD (padlen - k) 0) ++ x ++
  ((List.range padlen).map fun (k : ℕ) =>
    2 * x.getD (x.length - 1) 0 - x.getD (x.length - 2 - k) 0)

theorem oddExt_length (x : List ℚ) (padlen : ℕ) :
    (oddExt x padlen).length = x.length + 2 * padlen := by
  simp only [oddExt, List.length_append, List.length_map, List.length_range]
  omega

/-- The message of the ValueError scipy filtfilt raises for a short input. -/
def padlenMsg : String := "The length of the input vector x must be greater than padlen"

/-- scipy.signal.filtfilt(b, a, x) with the defaults padtype=odd and
padlen = 3 * max(len(a), len(b)): odd-extend, filter forward from a scaled
steady state, reverse, filter backward, reverse, and slice the padding off.
The lfilter_zi steady-state vector (a linear-system solution) is abstracted
as the parameter zi; the result length does not depend on it.  Raises
ValueError when the input is not longer than the pad length. -/
def filtfilt (b a zi x : List ℚ) : Except String (List ℚ) :=
  let edge := max b.length a.length * 3
  if x.length ≤ edge then .error padlenMsg
  else
    let ext := oddExt x edge
    let x0 := ext.getD 0 0
    let y1 := lfilter b a ext (zi.map fun z => z * x0)
    let y1r := y1.reverse
    let y0 := y1r.getD 0 0
    let y2 := lfilter b a y1r (zi.map fun z => z * y0)
    .ok ((y2.reverse.drop edge).take x.length)

theorem filtfilt_length (b a zi x : List ℚ) (hx : max b.length a.length * 3 < x.length) :
    ∃ y, filtfilt b a zi x = .ok y ∧ y.length = x.length := by
  rw [filtfilt]
  simp only [if_neg (Nat.not_le_of_lt hx)]
  refine ⟨_, rfl, ?_⟩
  rw [List.length_take, List.length_drop, List.length_reverse, lfilter_length,
    List.length_reverse, lfilter_length, oddExt_length]
  omega

/-- lowpass_filter from uart_p3_v2.py lines 25-27: filtfilt of the
butter(4, cutoff/nyquist) coefficients.  butter returns numerator and
denominator coefficient vectors of length order+1 = 5 each; their
transcendental values (bilinear transform of the analog Butterworth
prototype) are abstracted as the parameters b and a, which the length claims
do not depend on. -/
def lowpass_filter (b a zi data : List ℚ) : Except String (List ℚ) :=
  filtfilt b a zi data

/-- scipy.ndimage.convolve1d with mode=constant and cval=0 as used inside
savgol_filter: length-preserving windowed sum with out-of-range samples
contributing 0. -/
def convolve1dSame (w x : List ℚ) : List ℚ :=
  (List.range x.length).map fun (i : ℕ) =>
    ∑ j ∈ Finset.range w.length,
      w.getD j 0 * (if j ≤ i + w.length / 2 then x.getD (i + w.length / 2 - j) 0 else 0)

/-- The message of the ValueError scipy savgol_coeffs raises when the
polynomial order is not smaller than the window. -/
def polyorderMsg : String := "polyorder must be less than window_length."

/-- The message of the ValueError scipy savgol_filter raises in interp mode
when the window exceeds the series length. -/
def windowTooLongMsg : String :=
  "If mode is interp, window_length must be less than or equal to the size of x."

/-- scipy.signal.savgol_filter(x, window_length, polyorder) with the default
mode=interp: savgol_coeffs runs first and raises ValueError unless
polyorder < window_length, then the window is validated against the series
length; on success the series is convolved with the length-W least-squares
coefficient vector and the first and last W/2 samples are replaced by
polynomial edge fits.  The coefficient vector and the edge-fit values
(linear least-squares solutions) are abstracted as the parameters coeffs,
edgeL and edgeR; the result length does not depend on them. -/
def savgol_filter (coeffs : List ℚ) (edgeL edgeR : ℕ → ℚ) (window_length polyorder : ℕ)
    (x : List ℚ) : Except String (List ℚ) :=
  if window_length ≤ polyorder then .error polyorderMsg
  else if x.length < window_length then .error windowTooLongMsg
  else
    .ok ((convolve1dSame coeffs x).mapIdx fun i v =>
      if i < window_length / 2 then edgeL i
      else if x.length - window_length / 2 ≤ i then edgeR i else v)

theorem convolve1dSame_length (w x : List ℚ) : (convolve1dSame w x).length = x.length := by
  simp [convolve1dSame]

theorem savgol_filter_length (coeffs : List ℚ) (eL eR : ℕ → ℚ) (W po : ℕ) (x : List ℚ)
    (hpo : po < W) (hW : W ≤ x.length) :
    ∃ y, savgol_filter coeffs eL eR W po x = .ok y ∧ y.length = x.length := by
  rw [savgol_filter]
  simp only [if_neg (Nat.not_le_of_lt hpo), if_neg (Nat.not_lt_of_le hW)]
  refine ⟨_, rfl, ?_⟩
  rw [List.length_mapIdx, convolve1dSame_length]

/-- Counterexample for C4, one failing input per conditioner: the moving
average of window W = 2 over the length-1 series [5] has length 2 (numpy
valid-mode convolution yields max - min + 1 = W - L + 1 when W exceeds L),
not the claimed L - W + 1, which is 0 over the integers; the order-4
forward-backward IIR conditioner raises filtfilt's ValueError on a series of
length 15 = 3 * max(len(b), len(a)) instead of returning length 15; and the
Savitzky-Golay conditioner with the program's polyorder 3 raises ValueError
both when the window exceeds the series length (W = 5 over 4 samples) and
when the window does not exceed the polyorder (W = 2), instead of returning
the input length. -/
theorem conditionerLengths_counterexample :
    (((moving_average [5] 2).length : ℤ) = 2 ∧ (1 : ℤ) - 2 + 1 ≠ 2) ∧
    lowpass_filter (List.replicate 5 1) (List.replicate 5 1) [] (List.replicate 15 0)
      = .error padlenMsg ∧
    savgol_filter [1] (fun _ => 0) (fun _ => 0) 5 3 [0, 0, 0, 0]
      = .error windowTooLongMsg ∧
    savgol_filter [1] (fun _ => 0) (fun _ => 0) 2 3 [0, 0, 0, 0]
      = .error polyorderMsg := by
  refine ⟨⟨?_, by decide⟩, rfl, rfl, rfl⟩
  have h := convolveValid_length [5] (List.replicate 2 ((1 : ℚ) / 2))
    (by simp) (by simp)
  simp only [List.length_replicate, List.length_cons, List.length_nil] at h
  rw [moving_average]
  norm_num [h]

/-- C4 (amended): for a length-L input series, the moving-average conditioner
returns length L - W + 1 provided 1 ≤ W ≤ L (numpy valid-mode convolution
returns length max-min+1, so the original claim fails when W exceeds L); the
forward-backward IIR conditioner preserves length L provided L exceeds
filtfilt's pad length 3 * max(len(b), len(a)) = 15 for the length-5
butter(4) coefficient vectors (scipy raises ValueError otherwise); and the
Savitzky-Golay conditioner preserves length L provided polyorder < W ≤ L
(scipy raises ValueError otherwise — savgol_coeffs rejects
polyorder ≥ window_length, interp mode rejects W > L — and uart_p3_v3.py
guards the latter). -/
theorem signalConditioner_lengths (s : List ℚ) (W : ℕ) (hW1 : 1 ≤ W) (hWL : W ≤ s.length)
    (b a zi x2 : List ℚ) (hb : b.length = 5) (ha : a.length = 5) (hx2 : 15 < x2.length)
    (coeffs : List ℚ) (eL eR : ℕ → ℚ) (W3 po : ℕ) (x3 : List ℚ)
    (hpo : po < W3) (h3 : W3 ≤ x3.length) :
    (moving_average s W).length = s.length - W + 1 ∧
    (∃ y, lowpass_filter b a zi x2 = .ok y ∧ y.length = x2.length) ∧
    (∃ y, savgol_filter coeffs eL eR W3 po x3 = .ok y ∧ y.length = x3.length) := by
  refine ⟨?_, ?_, savgol_filter_length coeffs eL eR W3 po x3 hpo h3⟩
  · rw [moving_average, convolveValid_length s _ (by omega) (by simpa using hW1)]
    rw [List.length_replicate]
    omega
  · rw [lowpass_filter]
    apply filtfilt_length
    rw [hb, ha]
    simpa using hx2

/-- Witness for C4 (amended) at concrete parameters: moving average of window
1 over a 2-sample series, filtfilt with length-5 coefficient vectors over a
16-sample series, and Savitzky-Golay with window 4 and the program's
polyorder 3 over a 4-sample series. -/
theorem signalConditioner_lengths_witness :
    (moving_average [1, 2] 1).length = ([1, 2] : List ℚ).length - 1 + 1 ∧
    (∃ y, lowpass_filter (List.replicate 5 1) (List.replicate 5 1) []
        (List.replicate 16 0) = .ok y ∧ y.length = (List.replicate 16 (0 : ℚ)).length) ∧
    (∃ y, savgol_filter [1] (fun _ => 0) (fun _ => 0) 4 3 (List.replicate 4 0) = .ok y ∧
      y.length = (List.replicate 4 (0 : ℚ)).length) :=
  signalConditioner_lengths [1, 2] 1 (by norm_num) (by norm_num)
    (List.replicate 5 1) (List.replicate 5 1) [] (List.replicate 16 0)
    (by simp) (by simp) (by simp)
    [1] (fun _ => 0) (fun _ => 0) 4 3 (List.replicate 4 0) (by norm_num) (by simp)

/-! ## Burst spectral analyzer (Python_scripts/uart_v4.py lines 74-91)

  one     = np.fft.fft(x)[:len(x)//2]
  mag_lin = np.abs(one) / len(x)
  total_E = (np.abs(one) ** 2).sum()
  res_idx = np.argmax(mag_lin)
  res_freq = f_axis[res_idx]

Bins are embedded as complex numbers with rational parts.  Squared moduli
replace moduli throughout: squaring is strictly monotone on the nonnegative
reals, so magnitude comparisons and the position of the first maximum are
unchanged, and both sides of the energy claim are rational. -/

/-- A complex number with rational real and imaginary parts; the DFT bins the
analyzer manipulates are embedded exactly in this type. -/
structure QC where
  re : ℚ
  im : ℚ
deriving DecidableEq

/-- Addition of rational complex numbers. -/
def QC.add (z w : QC) : QC := ⟨z.re + w.re, z.im + w.im⟩

/-- Multiplication of rational complex numbers. -/
def QC.mul (z w : QC) : QC := ⟨z.re * w.re - z.im * w.im, z.re * w.im + z.im * w.re⟩

/-- A real rational viewed as a complex number. -/
def QC.ofQ (q : ℚ) : QC := ⟨q, 0⟩

/-- The squared modulus of a rational complex number. -/
def QC.normSq (z : QC) : ℚ := z.re * z.re + z.im * z.im

/-- Sum of a list of rational complex numbers. -/
def sumQC (l : List QC) : QC := l.foldr QC.add ⟨0, 0⟩

/-- Line 86: total_E = (np.abs(one) ** 2).sum(), the sum of squared raw-bin
moduli over the retained bins. -/
def totalEnergy (one : List QC) : ℚ := (one.map QC.normSq).sum

/-- Line 80 squared: the squared linear magnitude (|bin| / N)^2 of each
retained bin, with N = len(x). -/
def magSqList (one : List QC) (N : ℕ) : List ℚ :=
  one.map fun z => QC.normSq z / ((N : ℚ) * N)

/-- The running-maximum loop of np.argmax: a strictly greater value replaces
the current best, so the first occurrence of the maximum wins. -/
def argmaxAux : List ℚ → ℕ → ℕ → ℚ → ℕ
  | [], _, bi, _ => bi
  | a :: rest, i, bi, bv =>
      if bv < a then argmaxAux rest (i + 1) i a else argmaxAux rest (i + 1) bi bv

/-- np.argmax over a rational list: index of the first occurrence of the
maximum (0 for the empty list, which numpy itself rejects). -/
def argmaxIdx : List ℚ → ℕ
  | [] => 0
  | a :: rest => argmaxAux rest 1 0 a

/-- Line 81 restricted to the retained bins: np.fft.fftfreq(N, 1/rate) keeps
bin k at frequency k * rate / N for k below N/2. -/
def f_axis (N : ℕ) (rate : ℚ) : List ℚ :=
  (List.range (N / 2)).map fun (k : ℕ) => (k : ℚ) * rate / N

/-- Lines 87-88: the resonance frequency is the frequency-axis value at the
first bin of maximal linear magnitude (argmax of the squared magnitudes,
which numpy's argmax of mag_lin also selects). -/
def res_freq (freqs : List ℚ) (one : List QC) : ℚ :=
  freqs.getD (argmaxIdx (one.map QC.normSq)) 0

theorem argmaxAux_index (rest : List ℚ) : ∀ (i bi : ℕ) (bv : ℚ),
    argmaxAux rest i bi bv = bi ∨
      ∃ k, k < rest.length ∧ argmaxAux rest i bi bv = i + k := by
  induction rest with
  | nil => intro i bi bv; exact Or.inl rfl
  | cons a rest2 ih =>
      intro i bi bv
      rw [argmaxAux]
      by_cases h : bv < a
      · rw [if_pos h]
        rcases ih (i + 1) i a with h2 | ⟨k, hk, h2⟩
        · right
          exact ⟨0, by simp, by omega⟩
        · right
          refine ⟨k + 1, by simp only [List.length_cons]; omega, by omega⟩
      · rw [if_neg h]
        rcases ih (i + 1) bi bv with h2 | ⟨k, hk, h2⟩
        · exact Or.inl h2
        · right
          refine ⟨k + 1, by simp only [List.length_cons]; omega, by omega⟩

theorem argmaxAux_max (rest : List ℚ) : ∀ (i bi : ℕ) (bv : ℚ) (val : ℕ → ℚ),
    val bi = bv → (∀ k, k < rest.length → val (i + k) = rest.getD k 0) →
    bv ≤ val (argmaxAux rest i bi bv) ∧
    ∀ k, k < rest.length → rest.getD k 0 ≤ val (argmaxAux rest i bi bv) := by
  induction rest with
  | nil =>
      intro i bi bv val hbi _
      rw [argmaxAux]
      exact ⟨le_of_eq hbi.symm, fun k hk => absurd hk (by simp)⟩
  | cons a rest2 ih =>
      intro i bi bv val hbi hval
      have hvi : val i = a := by
        have h0 := hval 0 (by simp)
        simpa using h0
      have hshift : ∀ k, k < rest2.length → val (i + 1 + k) = rest2.getD k 0 := by
        intro k hk
        have hk1 := hval (k + 1) (by simp only [List.length_cons]; omega)
        rw [show i + (k + 1) = i + 1 + k by omega] at hk1
        simpa [List.getD_cons_succ] using hk1
      rw [argmaxAux]
      by_cases h : bv < a
      · rw [if_pos h]
        obtain ⟨h1, h2⟩ := ih (i + 1) i a val hvi hshift
        refine ⟨le_trans (le_of_lt h) h1, ?_⟩
        intro k hk
        cases k with
        | zero => simpa using h1
        | succ k2 =>
            have hrec := h2 k2 (by simp only [List.length_cons] at hk; omega)
            simpa [List.getD_cons_succ] using hrec
      · rw [if_neg h]
        obtain ⟨h1, h2⟩ := ih (i + 1) bi bv val hbi hshift
        refine ⟨h1, ?_⟩
        intro k hk
        cases k with
        | zero => simpa using le_trans (le_of_not_lt h) h1
        | succ k2 =>
            have hrec := h2 k2 (by simp only [List.length_cons] at hk; omega)
            simpa [List.getD_cons_succ] using hrec

theorem argmaxIdx_spec (l : List ℚ) :
    (l ≠ [] → argmaxIdx l < l.length) ∧
    ∀ k, k < l.length → l.getD k 0 ≤ l.getD (argmaxIdx l) 0 := by
  cases l with
  | nil => exact ⟨fun h => absurd rfl h, fun k hk => absurd hk (by simp)⟩
  | cons a rest =>
      constructor
      · intro _
        rw [argmaxIdx]
        rcases argmaxAux_index rest 1 0 a with h | ⟨k, hk, h⟩
        · rw [h]
          simp
        · rw [h]
          simp only [List.length_cons]
          omega
      · have horacle : ∀ k, k < rest.length → (a :: rest).getD (1 + k) 0 = rest.getD k 0 := by
          intro k _
          rw [show 1 + k = k + 1 by omega]
          simp [List.getD_cons_succ]
        obtain ⟨h1, h2⟩ := argmaxAux_max rest 1 0 a (fun j => (a :: rest).getD j 0)
          (by simp) horacle
        intro k hk
        rw [argmaxIdx]
        cases k with
        | zero => simpa using h1
        | succ k2 =>
            have hrec := h2 k2 (by simp only [List.length_cons] at hk; omega)
            simpa [List.getD_cons_succ] using hrec

theorem normSq_nonneg (z : QC) : 0 ≤ QC.normSq z := by
  rw [QC.normSq]
  have h1 := mul_self_nonneg z.re
  have h2 := mul_self_nonneg z.im
  linarith

theorem getD_map_normSq_nonneg (one : List QC) (j : ℕ) :
    0 ≤ (one.map QC.normSq).getD j 0 := by
  by_cases hj : j < (one.map QC.normSq).length
  · rw [List.getD_eq_getElem _ _ hj]
    simp only [List.getElem_map]
    exact normSq_nonneg _
  · rw [List.getD_eq_default _ _ (le_of_not_lt hj)]

/-- C9 (amended): the reported total energy equals the sum over the retained
bins of the squared raw-bin modulus |bin|^2, which is N^2 times the sum of
squared magnitudes (magnitude being |bin|/N) — not the sum of squared
magnitudes itself; the reported resonance frequency is the frequency-axis
value at np.argmax of the linear magnitudes, which is a first index of
maximal magnitude. -/
theorem burstSpectral_spec (one : List QC) (N : ℕ) (freqs : List ℚ) (hN : 0 < N) :
    totalEnergy one = (N : ℚ) * N * (magSqList one N).sum ∧
    res_freq freqs one = freqs.getD (argmaxIdx (one.map QC.normSq)) 0 ∧
    (one ≠ [] → argmaxIdx (one.map QC.normSq) < one.length) ∧
    (∀ k, (one.map QC.normSq).getD k 0
      ≤ (one.map QC.normSq).getD (argmaxIdx (one.map QC.normSq)) 0) := by
  have hNq : ((N : ℚ) * N) ≠ 0 := by
    have : (N : ℚ) ≠ 0 := Nat.cast_ne_zero.mpr (by omega)
    exact mul_ne_zero this this
  refine ⟨?_, rfl, ?_, ?_⟩
  · have hmap : magSqList one N
        = (one.map QC.normSq).map fun t => (1 / ((N : ℚ) * N)) * t := by
      rw [magSqList, List.map_map]
      apply List.map_congr_left
      intro z _
      show QC.normSq z / ((N : ℚ) * N) = (1 / ((N : ℚ) * N)) * QC.normSq z
      rw [div_eq_mul_inv, one_div]
      ring
    rw [totalEnergy, hmap, sum_map_mul, ← mul_assoc, mul_one_div_cancel hNq, one_mul]
  · intro hne
    have hlt := (argmaxIdx_spec (one.map QC.normSq)).1 (by simpa using hne)
    simpa using hlt
  · intro k
    by_cases hk : k < (one.map QC.normSq).length
    · exact (argmaxIdx_spec _).2 k hk
    · rw [List.getD_eq_default _ _ (le_of_not_lt hk)]
      exact getD_map_normSq_nonneg one _

/-- Witness for C9 (amended) at the single retained bin 3 + 4i with N = 2:
total energy 25 equals N^2 = 4 times the squared-magnitude sum 25/4, and the
argmax lands inside the bin list. -/
theorem burstSpectral_spec_witness :
    totalEnergy [QC.mk 3 4] = ((2 : ℕ) : ℚ) * 2 * (magSqList [QC.mk 3 4] 2).sum ∧
    argmaxIdx ([QC.mk 3 4].map QC.normSq) < [QC.mk 3 4].length :=
  ⟨(burstSpectral_spec [QC.mk 3 4] 2 [50] (by norm_num)).1,
   (burstSpectral_spec [QC.mk 3 4] 2 [50] (by norm_num)).2.2.1 (by simp)⟩

/-- The power table of the fourth root of unity e^(-2*pi*i/4) = -i used by the
length-4 DFT: powers m mod 4 = 0, 1, 2, 3 give 1, -i, -1, i, all Gaussian
rationals, so the length-4 DFT is exact over QC. -/
def rootPow4 (m : ℕ) : QC :=
  if m % 4 = 0 then ⟨1, 0⟩
  else if m % 4 = 1 then ⟨0, -1⟩
  else if m % 4 = 2 then ⟨-1, 0⟩
  else ⟨0, 1⟩

/-- np.fft.fft of a real length-4 input: bin k is the sum over n of
x[n] * e^(-2*pi*i*k*n/4). -/
def dft4 (x : List ℚ) : List QC :=
  (List.range 4).map fun (k : ℕ) =>
    sumQC ((List.range 4).map fun (n : ℕ) =>
      QC.mul (rootPow4 (k * n)) (QC.ofQ (x.getD n 0)))

/-- np.hanning(4): 0.5 - 0.5*cos(2*pi*n/3) for n = 0..3; cos(2*pi/3) and
cos(4*pi/3) both equal -1/2 exactly, so the window is [0, 3/4, 3/4, 0]. -/
def hann4 : List ℚ := [0, 3 / 4, 3 / 4, 0]

/-- Lines 74-79 of uart_v4.py specialized to a 4-sample burst: voltage
conversion, dead-band filter at the configured 100 mV threshold, mean
removal, Hann window, FFT, and retention of the first len(x)//2 bins. -/
def oneBins4 (adc : List ℕ) : List QC :=
  let v_filt := filter_voltage (adc.map voltageOfCode) 100
  let x := List.zipWith (fun p q => p * q) (v_filt.map fun t => t - meanQ v_filt) hann4
  (dft4 x).take (x.length / 2)

/-- Counterexample for C9: for the concrete 4-sample burst with ADC codes
[0, 4095, 0, 0], the analyzer's reported total energy (sum of squared
raw-bin moduli, line 86) is 16 times the sum of squared magnitudes
(magnitude = |bin|/N with N = 4, line 80), and the two are unequal, so the
reported total energy does not equal the sum of squared magnitudes. -/
theorem burstEnergy_counterexample :
    totalEnergy (oneBins4 [0, 4095, 0, 0])
      = 16 * (magSqList (oneBins4 [0, 4095, 0, 0]) 4).sum ∧
    totalEnergy (oneBins4 [0, 4095, 0, 0])
      ≠ (magSqList (oneBins4 [0, 4095, 0, 0]) 4).sum := by
  have hbins : oneBins4 [0, 4095, 0, 0] = [⟨2475 / 2, 0⟩, ⟨2475 / 4, -(7425 / 4)⟩] := by
    norm_num [oneBins4, filter_voltage, meanQ, voltageOfCode, hann4, dft4, rootPow4,
      sumQC, QC.mul, QC.add, QC.ofQ, abs_le, List.range_succ]
  rw [hbins]
  norm_num [totalEnergy, magSqList, QC.normSq]

/-! ## Peak detector (uart_p3.py lines 98-99)

scipy.signal.find_peaks(v, distance=MIN_DISTANCE_SAMPLES,
prominence=MIN_PROMINENCE), embedding scipy's _local_maxima_1d,
_select_by_peak_distance and _peak_prominences.  find_peaks validates
distance >= 1 and raises ValueError otherwise; distance filtering runs before
prominence filtering, with peak height (the sample value) as priority. -/

/-- The plateau scan of scipy's _local_maxima_1d: i_ahead advances while it
stays left of the last index and the sample still equals the candidate peak
value. -/
def lmScanPlateau (x : List ℚ) (iMax : ℕ) (v : ℚ) (iAhead : ℕ) : ℕ :=
  if iAhead < iMax ∧ x.getD iAhead 0 = v then lmScanPlateau x iMax v (iAhead + 1)
  else iAhead
termination_by iMax - iAhead
decreasing_by omega

theorem lmScanPlateau_ge (x : List ℚ) (iMax : ℕ) (v : ℚ) (iAhead : ℕ) :
    iAhead ≤ lmScanPlateau x iMax v iAhead := by
  generalize hfuel : iMax - iAhead = fuel
  induction fuel using Nat.strong_induction_on generalizing iAhead with
  | _ fuel ih =>
      rw [lmScanPlateau]
      split
      · next h =>
          have hrec := ih (iMax - (iAhead + 1)) (by omega) (iAhead + 1) rfl
          omega
      · exact le_refl _

/-- The main scan of scipy's _local_maxima_1d: i runs from 1 to the
second-to-last index; a strict rise followed (possibly after a plateau) by a
strict fall records the plateau midpoint and resumes past the plateau
(i_ahead is computed once per rise; it is written out three times here in
place of scipy's local variable). -/
def localMaximaAux (x : List ℚ) (iMax : ℕ) (i : ℕ) : List ℕ :=
  if i < iMax then
    if x.getD (i - 1) 0 < x.getD i 0 then
      if x.getD (lmScanPlateau x iMax (x.getD i 0) (i + 1)) 0 < x.getD i 0 then
        (i + (lmScanPlateau x iMax (x.getD i 0) (i + 1) - 1)) / 2
          :: localMaximaAux x iMax (lmScanPlateau x iMax (x.getD i 0) (i + 1) + 1)
      else localMaximaAux x iMax (i + 1)
    else localMaximaAux x iMax (i + 1)
  else []
termination_by iMax - i
decreasing_by
  · have := lmScanPlateau_ge x iMax (x.getD i 0) (i + 1)
    omega
  · omega
  · omega

/-- scipy's _local_maxima_1d over the whole series: midpoints of all strict
local maxima (plateau midpoints), scanning indices 1 to len - 2. -/
def localMaxima (x : List ℚ) : List ℕ := localMaximaAux x (x.length - 1) 1

/-- The left-kill loop of scipy's _select_by_peak_distance: walking down from
position j - 1, keep flags are cleared while the peak is closer than distance
below peaks[j]; the argument kk encodes the running position k as kk - 1, so
kk = 0 is the k < 0 exit. -/
def killLeft (peaks : List ℕ) (dist pj : ℕ) : ℕ → List Bool → List Bool
  | 0, keep => keep
  | k + 1, keep =>
      if pj - peaks.getD k 0 < dist then killLeft peaks dist pj k (keep.set k false)
      else keep

/-- The right-kill loop of _select_by_peak_distance: walking up from position
j + 1 while inside the peak list (peaks_size equals the keep length), keep
flags are cleared while the peak is closer than distance above peaks[j]. -/
def killRight (peaks : List ℕ) (dist pj : ℕ) (k : ℕ) (keep : List Bool) : List Bool :=
  if k < keep.length then
    if peaks.getD k 0 - pj < dist then killRight peaks dist pj (k + 1) (keep.set k false)
    else keep
  else keep
termination_by keep.length - k
decreasing_by
  rw [List.length_set]
  omega

/-- One iteration of the _select_by_peak_distance priority loop for the peak
at position j: an already-cleared peak is skipped; otherwise neighbours too
close on either side are cleared, left side first. -/
def processPeak (peaks : List ℕ) (dist j : ℕ) (keep : List Bool) : List Bool :=
  if keep.getD j false then
    killRight peaks dist (peaks.getD j 0) (j + 1)
      (killLeft peaks dist (peaks.getD j 0) j keep)
  else keep

/-- np.argsort of the priority values, here stable ascending (numpy's default
introsort leaves the tie order unspecified; the select theorems below hold
for any processing order that visits every position). -/
def argsortQ (v : List ℚ) : List ℕ :=
  (List.range v.length).mergeSort fun a b => decide (v.getD a 0 ≤ v.getD b 0)

/-- scipy's _select_by_peak_distance: starting from all-true keep flags,
process positions from the highest priority down, clearing the too-close
neighbours of every still-kept peak. -/
def selectByPeakDistance (peaks : List ℕ) (priority : List ℚ) (dist : ℕ) : List Bool :=
  (argsortQ priority).reverse.foldl (fun keep j => processPeak peaks dist j keep)
    (List.replicate peaks.length true)

/-- Boolean-mask indexing peaks[keep]. -/
def filterByKeep : List ℕ → List Bool → List ℕ
  | p :: ps, b :: bs => if b then p :: filterByKeep ps bs else filterByKeep ps bs
  | _, _ => []

/-- The left base scan of scipy's _peak_prominences (wlen unset): walk down
from the peak while samples do not exceed the peak value, tracking the
running minimum; the argument kk encodes the running index i as kk - 1. -/
def promScanLeft (x : List ℚ) (xpeak : ℚ) : ℕ → ℚ → ℚ
  | 0, m => m
  | k + 1, m =>
      if x.getD k 0 ≤ xpeak then promScanLeft x xpeak k (min m (x.getD k 0))
      else m

/-- The right base scan of _peak_prominences: walk up from the peak to the
last index while samples do not exceed the peak value, tracking the running
minimum. -/
def promScanRight (x : List ℚ) (xpeak : ℚ) (iMax : ℕ) (i : ℕ) (m : ℚ) : ℚ :=
  if i ≤ iMax then
    if x.getD i 0 ≤ xpeak then promScanRight x xpeak iMax (i + 1) (min m (x.getD i 0))
    else m
  else m
termination_by iMax + 1 - i

/-- scipy's _peak_prominences for one peak: its height above the higher of
the two base minima found by the scans. -/
def peakProminence (x : List ℚ) (peak : ℕ) : ℚ :=
  x.getD peak 0 -
    max (promScanLeft x (x.getD peak 0) (peak + 1) (x.getD peak 0))
      (promScanRight x (x.getD peak 0) (x.length - 1) peak (x.getD peak 0))

/-- The message of the ValueError scipy find_peaks raises for distance < 1. -/
def distanceMsg : String := "distance must be greater or equal to 1"

/-- scipy.signal.find_peaks(x, distance, prominence) as the pipeline calls
it: validate distance, find local maxima, enforce the minimal distance with
peak height as priority, then keep peaks whose prominence reaches the
threshold. -/
def find_peaks (x : List ℚ) (distance : ℕ) (prominence : ℚ) : Except String (List ℕ) :=
  if distance < 1 then .error distanceMsg
  else
    .ok ((filterByKeep (localMaxima x)
        (selectByPeakDistance (localMaxima x)
          ((localMaxima x).map fun p => x.getD p 0) distance)).filter
      fun p => decide (prominence ≤ peakProminence x p))

theorem getD_set_false (keep : List Bool) (k m : ℕ) :
    (keep.set k false).getD m false = true → keep.getD m false = true := by
  induction keep generalizing k m with
  | nil => simp [List.set]
  | cons b bs ih =>
      cases k with
      | zero =>
          cases m with
          | zero => simp [List.set]
          | succ m2 => simp [List.set, List.getD_cons_succ]
      | succ k2 =>
          cases m with
          | zero => simp [List.set]
          | succ m2 =>
              simp only [List.set, List.getD_cons_succ]
              exact ih k2 m2

theorem getD_set_self_false (keep : List Bool) (k : ℕ) (hk : k < keep.length) :
    (keep.set k false).getD k false = false := by
  induction keep generalizing k with
  | nil => simp at hk
  | cons b bs ih =>
      cases k with
      | zero => simp [List.set]
      | succ k2 =>
          simp only [List.set, List.getD_cons_succ]
          exact ih k2 (by simpa using hk)

theorem killLeft_mono (peaks : List ℕ) (dist pj : ℕ) :
    ∀ (kk : ℕ) (keep : List Bool) (m : ℕ),
      (killLeft peaks dist pj kk keep).getD m false = true → keep.getD m false = true := by
  intro kk
  induction kk with
  | zero => intro keep m h; exact h
  | succ k ih =>
      intro keep m h
      rw [killLeft] at h
      by_cases hc : pj - peaks.getD k 0 < dist
      · rw [if_pos hc] at h
        exact getD_set_false keep k m (ih (keep.set k false) m h)
      · rw [if_neg hc] at h
        exact h

theorem killRight_mono (peaks : List ℕ) (dist pj : ℕ) :
    ∀ (k : ℕ) (keep : List Bool) (m : ℕ),
      (killRight peaks dist pj k keep).getD m false = true → keep.getD m false = true := by
  intro k keep
  generalize hfuel : keep.length - k = fuel
  induction fuel using Nat.strong_induction_on generalizing k keep with
  | _ fuel ih =>
      intro m h
      rw [killRight] at h
      by_cases hk : k < keep.length
      · rw [if_pos hk] at h
        by_cases hc : peaks.getD k 0 - pj < dist
        · rw [if_pos hc] at h
          have hlen : (keep.set k false).length - (k + 1) < fuel := by
            rw [List.length_set]
            omega
          exact getD_set_false keep k m (ih _ hlen (k + 1) (keep.set k false) rfl m h)
        · rw [if_neg hc] at h
          exact h
      · rw [if_neg hk] at h
        exact h

theorem processPeak_mono (peaks : List ℕ) (dist j : ℕ) (keep : List Bool) (m : ℕ) :
    (processPeak peaks dist j keep).getD m false = true → keep.getD m false = true := by
  intro h
  rw [processPeak] at h
  by_cases hj : keep.getD j false
  · rw [if_pos hj] at h
    exact killLeft_mono peaks dist _ j keep m (killRight_mono peaks dist _ (j + 1) _ m h)
  · rw [if_neg hj] at h
    exact h

theorem foldl_processPeak_mono (peaks : List ℕ) (dist : ℕ) :
    ∀ (os : List ℕ) (keep : List Bool) (m : ℕ),
      ((os.foldl (fun kp j => processPeak peaks dist j kp) keep).getD m false = true) →
      keep.getD m false = true := by
  intro os
  induction os with
  | nil => intro keep m h; exact h
  | cons o rest ih =>
      intro keep m h
      exact processPeak_mono peaks dist o keep m (ih (processPeak peaks dist o keep) m h)

theorem killLeft_length (peaks : List ℕ) (dist pj : ℕ) :
    ∀ (kk : ℕ) (keep : List Bool), (killLeft peaks dist pj kk keep).length = keep.length := by
  intro kk
  induction kk with
  | zero => intro keep; rfl
  | succ k ih =>
      intro keep
      rw [killLeft]
      by_cases hc : pj - peaks.getD k 0 < dist
      · rw [if_pos hc, ih, List.length_set]
      · rw [if_neg hc]

theorem killRight_length (peaks : List ℕ) (dist pj : ℕ) :
    ∀ (k : ℕ) (keep : List Bool), (killRight peaks dist pj k keep).length = keep.length := by
  intro k keep
  generalize hfuel : keep.length - k = fuel
  induction fuel using Nat.strong_induction_on generalizing k keep with
  | _ fuel ih =>
      rw [killRight]
      by_cases hk : k < keep.length
      · rw [if_pos hk]
        by_cases hc : peaks.getD k 0 - pj < dist
        · rw [if_pos hc]
          have hlen : (keep.set k false).length - (k + 1) < fuel := by
            rw [List.length_set]
            omega
          rw [ih _ hlen (k + 1) (keep.set k false) rfl, List.length_set]
        · rw [if_neg hc]
      · rw [if_neg hk]

theorem processPeak_length (peaks : List ℕ) (dist j : ℕ) (keep : List Bool) :
    (processPeak peaks dist j keep).length = keep.length := by
  rw [processPeak]
  by_cases hj : keep.getD j false
  · rw [if_pos hj, killRight_length, killLeft_length]
  · rw [if_neg hj]

theorem killRight_kills (peaks : List ℕ) (dist pj j m : ℕ)
    (hmono : ∀ p q, p ≤ q → q < peaks.length → peaks.getD p 0 ≤ peaks.getD q 0)
    (hpj : pj = peaks.getD j 0) (hm : m < peaks.length)
    (hclose : peaks.getD m 0 < pj + dist) :
    ∀ (k : ℕ) (keep : List Bool), keep.length = peaks.length → j < k → k ≤ m →
      (killRight peaks dist pj k keep).getD m false = false := by
  intro k keep
  generalize hfuel : keep.length - k = fuel
  induction fuel using Nat.strong_induction_on generalizing k keep with
  | _ fuel ih =>
      intro hklen hjk hkm
      rw [killRight]
      have hkl : k < keep.length := by omega
      rw [if_pos hkl]
      by_cases hc : peaks.getD k 0 - pj < dist
      · rw [if_pos hc]
        by_cases hmk : m = k
        · subst hmk
          have hinput : (keep.set m false).getD m false = false :=
            getD_set_self_false keep m (by omega)
          cases hres : (killRight peaks dist pj (m + 1) (keep.set m false)).getD m false with
          | false => rfl
          | true =>
              have hmono2 := killRight_mono peaks dist pj (m + 1) (keep.set m false) m hres
              rw [hinput] at hmono2
              exact Bool.noConfusion hmono2
        · have hlen2 : (keep.set k false).length - (k + 1) < fuel := by
            rw [List.length_set]
            omega
          exact ih _ hlen2 (k + 1) (keep.set k false) rfl
            (by rw [List.length_set]; exact hklen) (by omega) (by omega)
      · exfalso
        have h1 : peaks.getD j 0 ≤ peaks.getD k 0 := hmono j k (by omega) (by omega)
        have h2 : peaks.getD k 0 ≤ peaks.getD m 0 := hmono k m hkm hm
        omega

theorem foldl_processPeak_kills_pair (peaks : List ℕ) (dist : ℕ)
    (hmono : ∀ p q, p ≤ q → q < peaks.length → peaks.getD p 0 ≤ peaks.getD q 0)
    (a b : ℕ) (hab : a < b) (hb : b < peaks.length)
    (hclose : peaks.getD b 0 < peaks.getD a 0 + dist) :
    ∀ (os : List ℕ) (keep : List Bool), keep.length = peaks.length → a ∈ os →
      ¬(((os.foldl (fun kp j => processPeak peaks dist j kp) keep).getD a false = true) ∧
        ((os.foldl (fun kp j => processPeak peaks dist j kp) keep).getD b false = true)) := by
  intro os
  induction os with
  | nil =>
      intro keep _ ha
      exact absurd ha (List.not_mem_nil a)
  | cons o rest ih =>
      intro keep hklen hmem
      simp only [List.foldl_cons]
      by_cases hao : a = o
      · subst hao
        cases hka : keep.getD a false with
        | true =>
            rintro ⟨hfa, hfb⟩
            have hb1 : (processPeak peaks dist a keep).getD b false = false := by
              rw [processPeak, if_pos hka]
              apply killRight_kills peaks dist (peaks.getD a 0) a b hmono rfl hb hclose
                (a + 1) _ ?_ (by omega) (by omega)
              rw [killLeft_length]
              exact hklen
            have hfb2 := foldl_processPeak_mono peaks dist rest _ b hfb
            rw [hb1] at hfb2
            exact Bool.noConfusion hfb2
        | false =>
            rintro ⟨hfa, hfb⟩
            have ha1 : (processPeak peaks dist a keep).getD a false = false := by
              rw [processPeak, if_neg (by rw [hka]; exact Bool.false_ne_true)]
              exact hka
            have hfa2 := foldl_processPeak_mono peaks dist rest _ a hfa
            rw [ha1] at hfa2
            exact Bool.noConfusion hfa2
      · have hmem2 : a ∈ rest := by
          rcases List.mem_cons.mp hmem with h | h
          · exact absurd h hao
          · exact h
        exact ih (processPeak peaks dist o keep)
          (by rw [processPeak_length]; exact hklen) hmem2

theorem selectByPeakDistance_spec (peaks : List ℕ) (priority : List ℚ) (dist : ℕ)
    (hmono : ∀ p q, p ≤ q → q < peaks.length → peaks.getD p 0 ≤ peaks.getD q 0)
    (hpl : priority.length = peaks.length)
    (a b : ℕ) (hab : a < b) (hb : b < peaks.length)
    (hka : (selectByPeakDistance peaks priority dist).getD a false = true)
    (hkb : (selectByPeakDistance peaks priority dist).getD b false = true) :
    peaks.getD a 0 + dist ≤ peaks.getD b 0 := by
  by_contra hlt
  push_neg at hlt
  have hmem : a ∈ (argsortQ priority).reverse := by
    rw [List.mem_reverse, argsortQ]
    have hperm := List.mergeSort_perm (List.range priority.length)
      fun p q => decide (priority.getD p 0 ≤ priority.getD q 0)
    rw [hperm.mem_iff]
    exact List.mem_range.mpr (by omega)
  have hfold := foldl_processPeak_kills_pair peaks dist hmono a b hab hb hlt
    (argsortQ priority).reverse (List.replicate peaks.length true)
    (by rw [List.length_replicate]) hmem
  rw [selectByPeakDistance] at hka hkb
  exact hfold ⟨hka, hkb⟩

theorem localMaximaAux_lb_pairwise (x : List ℚ) (iMax : ℕ) (i : ℕ) :
    (∀ m ∈ localMaximaAux x iMax i, i ≤ m) ∧
      List.Pairwise (fun a b => a < b) (localMaximaAux x iMax i) := by
  generalize hfuel : iMax - i = fuel
  induction fuel using Nat.strong_induction_on generalizing i with
  | _ fuel ih =>
      rw [localMaximaAux]
      by_cases hi : i < iMax
      · rw [if_pos hi]
        by_cases hrise : x.getD (i - 1) 0 < x.getD i 0
        · rw [if_pos hrise]
          by_cases hfall : x.getD (lmScanPlateau x iMax (x.getD i 0) (i + 1)) 0 < x.getD i 0
          · rw [if_pos hfall]
            have hge := lmScanPlateau_ge x iMax (x.getD i 0) (i + 1)
            generalize hA : lmScanPlateau x iMax (x.getD i 0) (i + 1) = iA
            rw [hA] at hge
            obtain ⟨hlb, hpw⟩ := ih (iMax - (iA + 1)) (by omega) (iA + 1) rfl
            constructor
            · intro m hm
              rcases List.mem_cons.mp hm with rfl | hm2
              · have h1 : i + i ≤ i + (iA - 1) := by omega
                calc i = (i + i) / 2 := by omega
                  _ ≤ (i + (iA - 1)) / 2 := Nat.div_le_div_right h1
              · have := hlb m hm2
                omega
            · refine List.Pairwise.cons ?_ hpw
              intro y hy
              have hyge := hlb y hy
              have hmid : (i + (iA - 1)) / 2 ≤ iA - 1 := by
                have h1 : i + (iA - 1) ≤ (iA - 1) + (iA - 1) := by omega
                calc (i + (iA - 1)) / 2 ≤ ((iA - 1) + (iA - 1)) / 2 :=
                      Nat.div_le_div_right h1
                  _ = iA - 1 := by omega
              omega
          · rw [if_neg hfall]
            obtain ⟨hlb, hpw⟩ := ih (iMax - (i + 1)) (by omega) (i + 1) rfl
            exact ⟨fun m hm => by have := hlb m hm; omega, hpw⟩
        · rw [if_neg hrise]
          obtain ⟨hlb, hpw⟩ := ih (iMax - (i + 1)) (by omega) (i + 1) rfl
          exact ⟨fun m hm => by have := hlb m hm; omega, hpw⟩
      · rw [if_neg hi]
        exact ⟨fun m hm => absurd hm (List.not_mem_nil m), List.Pairwise.nil⟩

theorem pairwise_lt_getD_mono (l : List ℕ) (h : List.Pairwise (fun a b => a < b) l) :
    ∀ p q, p ≤ q → q < l.length → l.getD p 0 ≤ l.getD q 0 := by
  intro p q hpq hq
  by_cases hlt : p < q
  · have hp : p < l.length := by omega
    rw [List.getD_eq_getElem _ _ hp, List.getD_eq_getElem _ _ hq]
    exact le_of_lt (List.pairwise_iff_getElem.mp h p q hp hq hlt)
  · have heq : p = q := by omega
    subst heq
    exact le_refl _

theorem mem_filterByKeep : ∀ (ps : List ℕ) (bs : List Bool) (y : ℕ),
    y ∈ filterByKeep ps bs →
    ∃ k, k < ps.length ∧ bs.getD k false = true ∧ ps.getD k 0 = y := by
  intro ps
  induction ps with
  | nil =>
      intro bs y h
      cases bs with
      | nil => exact absurd h (List.not_mem_nil y)
      | cons b bs2 => exact absurd h (List.not_mem_nil y)
  | cons p ps2 ih =>
      intro bs y h
      cases bs with
      | nil => exact absurd h (List.not_mem_nil y)
      | cons b bs2 =>
          rw [filterByKeep] at h
          by_cases hb : b = true
          · subst hb
            rw [if_pos rfl] at h
            rcases List.mem_cons.mp h with rfl | h2
            · exact ⟨0, by simp, rfl, rfl⟩
            · obtain ⟨k, hk, hbk, hpk⟩ := ih bs2 y h2
              refine ⟨k + 1, by simp only [List.length_cons]; omega, ?_, ?_⟩
              · simpa [List.getD_cons_succ] using hbk
              · simpa [List.getD_cons_succ] using hpk
          · have hbf : b = false := by simpa using hb
            subst hbf
            rw [if_neg (by simp)] at h
            obtain ⟨k, hk, hbk, hpk⟩ := ih bs2 y h
            refine ⟨k + 1, by simp only [List.length_cons]; omega, ?_, ?_⟩
            · simpa [List.getD_cons_succ] using hbk
            · simpa [List.getD_cons_succ] using hpk

theorem pairwise_filterByKeep (R : ℕ → ℕ → Prop) :
    ∀ (ps : List ℕ) (bs : List Bool),
    (∀ i j, i < j → j < ps.length → bs.getD i false = true → bs.getD j false = true →
      R (ps.getD i 0) (ps.getD j 0)) →
    List.Pairwise R (filterByKeep ps bs) := by
  intro ps
  induction ps with
  | nil =>
      intro bs H
      cases bs with
      | nil => exact List.Pairwise.nil
      | cons b bs2 => exact List.Pairwise.nil
  | cons p ps2 ih =>
      intro bs H
      cases bs with
      | nil => exact List.Pairwise.nil
      | cons b bs2 =>
          rw [filterByKeep]
          have hshift : ∀ i j, i < j → j < ps2.length → bs2.getD i false = true →
              bs2.getD j false = true → R (ps2.getD i 0) (ps2.getD j 0) := by
            intro i j hij hj hbi hbj
            have hH := H (i + 1) (j + 1) (by omega) (by simp only [List.length_cons]; omega)
              (by simpa [List.getD_cons_succ] using hbi)
              (by simpa [List.getD_cons_succ] using hbj)
            simpa [List.getD_cons_succ] using hH
          by_cases hb : b = true
          · subst hb
            rw [if_pos rfl]
            refine List.Pairwise.cons ?_ (ih bs2 hshift)
            intro y hy
            obtain ⟨k, hk, hbk, hpk⟩ := mem_filterByKeep ps2 bs2 y hy
            have hH := H 0 (k + 1) (by omega) (by simp only [List.length_cons]; omega)
              (by simp) (by simpa [List.getD_cons_succ] using hbk)
            rw [← hpk]
            simpa [List.getD_cons_succ] using hH
          · have hbf : b = false := by simpa using hb
            subst hbf
            rw [if_neg (by simp)]
            exact ih bs2 hshift

/-- Counterexample for C5: scipy's find_peaks validates its distance
parameter and raises ValueError for min_distance = 0, so the detector is not
failure-free for every parameter value. -/
theorem peakDetector_distance_counterexample :
    find_peaks [0, 5, 0] 0 1 = .error distanceMsg := rfl

/-- C5 (amended): for every conditioned series, every prominence threshold,
and every min_distance of at least 1 sample (scipy raises ValueError below
1), the peak detector succeeds, and the returned index sequence — possibly
empty — is strictly increasing with consecutive indices differing by at
least min_distance samples. -/
theorem peakDetector_spec (x : List ℚ) (d : ℕ) (p : ℚ) (hd : 1 ≤ d) :
    ∃ l, find_peaks x d p = .ok l ∧
      List.Chain' (fun a b => a < b ∧ a + d ≤ b) l := by
  rw [find_peaks, if_neg (by omega)]
  refine ⟨_, rfl, ?_⟩
  have hpw0 : List.Pairwise (fun a b => a < b) (localMaxima x) := by
    rw [localMaxima]
    exact (localMaximaAux_lb_pairwise x (x.length - 1) 1).2
  have hmono := pairwise_lt_getD_mono (localMaxima x) hpw0
  have hpwmask : List.Pairwise (fun a b => a + d ≤ b)
      (filterByKeep (localMaxima x) (selectByPeakDistance (localMaxima x)
        ((localMaxima x).map fun q => x.getD q 0) d)) := by
    apply pairwise_filterByKeep
    intro i j hij hj hbi hbj
    exact selectByPeakDistance_spec (localMaxima x) _ d hmono
      (by rw [List.length_map]) i j hij hj hbi hbj
  have hpwfilter := hpwmask.sublist
    (@List.filter_sublist ℕ (fun q => decide (p ≤ peakProminence x q)) _)
  exact List.Pairwise.chain' (hpwfilter.imp fun h => ⟨by omega, h⟩)

/-- Witness for C5 (amended) on the series [0, 5, 0, 0, 7, 0] with
min_distance 1 and min_prominence 1. -/
theorem peakDetector_spec_witness :
    ∃ l, find_peaks [0, 5, 0, 0, 7, 0] 1 1 = .ok l ∧
      List.Chain' (fun a b => a < b ∧ a + 1 ≤ b) l :=
  peakDetector_spec [0, 5, 0, 0, 7, 0] 1 1 (by norm_num)

end Uart
